import Mathlib

/-!
Verification of the xcursor decoder and theme resolver of the ximage
repository, via a shallow embedding of `src/xcursor/decoder.go` and
`src/xcursor/theme.go` (the version of `theme.go` that loads a theme's
own cursor directory before resolving inherited themes).

The decoder is embedded as a state-passing function over a byte list;
Go's panic/recover error short-circuiting becomes an explicit
`DecOut.err` result, and the raw `panic("tried to seek backwards")`
of `SeekTo` (which is not caught by `catch`) becomes the distinct
`DecOut.fatal` result.  Machine integers (`uint32`) are modelled as
`Nat` with explicit reduction mod `2 ^ 32` where Go's arithmetic wraps.
The reader models the non-seekable path of the decoder (a plain
`io.Reader` wrapped in `bufio.Reader`, the general `Decode` entry
point): a forward seek discards bytes, and a short read consumes all
remaining input before failing.
-/

namespace Ximage

/-- A byte stream; each entry is one byte value. -/
abbrev Bytes := List Nat

/-- Reader state of `decoder`: the underlying input and the count `n` of
consumed bytes (`decoder.n` in the source). -/
structure DecSt where
  input : Bytes
  pos : Nat
deriving DecidableEq

/-- Decode errors thrown via `d.throw` in the source: `ErrBadMagic`, read
failures (EOF / short reads), the TOC type/subtype mismatch errors and the
unknown-TOC-type error. -/
inductive DecErr where
  | badMagic
  | eof
  | tocTypeMismatch (expected got : Nat)
  | tocSubtypeMismatch (expected got : Nat)
  | unknownTocType (t : Nat)
deriving DecidableEq

/-- Outcome of one decoding step: success, a decode error (a thrown
`decoderError`, recovered by `catch` and returned to the caller), or the
uncaught `fatal` outcome modelling the raw Go panic in `SeekTo`. -/
inductive DecOut (α : Type) where
  | ok (a : α) (s : DecSt)
  | err (e : DecErr) (s : DecSt)
  | fatal (s : DecSt)
deriving DecidableEq

/-- Sequencing of decoding steps; errors and the fatal outcome
short-circuit, exactly like `d.throw`'s unwinding. -/
def DecOut.bind {α β : Type} : DecOut α → (α → DecSt → DecOut β) → DecOut β
  | .ok a s, k => k a s
  | .err e s, _ => .err e s
  | .fatal s, _ => .fatal s

/-- Reads exactly `n` bytes (`io.ReadFull` through `decoder.Read`); on a
short read all remaining input is consumed and the read fails. -/
def readBytes (n : Nat) (s : DecSt) : DecOut Bytes :=
  if s.pos + n ≤ s.input.length then
    .ok ((s.input.drop s.pos).take n) ⟨s.input, s.pos + n⟩
  else
    .err .eof ⟨s.input, s.input.length⟩

/-- Value of a 4-byte little-endian unsigned integer. -/
def le32 : Bytes → Nat
  | [a, b, c, d] => a + 256 * b + 65536 * c + 16777216 * d
  | _ => 0

/-- Embeds `d.uint32()`: reads 4 bytes and decodes them little-endian. -/
def uint32 (s : DecSt) : DecOut Nat :=
  (readBytes 4 s).bind fun bs s' => .ok (le32 bs) s'

/-- Embeds `d.Discard(n)`: consumes `n` bytes; on a short discard all remaining
input is consumed and the discard fails. -/
def discard (n : Nat) (s : DecSt) : DecOut Unit :=
  if s.pos + n ≤ s.input.length then
    .ok () ⟨s.input, s.pos + n⟩
  else
    .err .eof ⟨s.input, s.input.length⟩

/-- Embeds `d.SeekTo(n)`: a backward target is a fatal panic, an on-target seek is
a no-op, and a forward seek discards the gap (non-seekable source path). -/
def seekTo (n : Nat) (s : DecSt) : DecOut Unit :=
  if n < s.pos then .fatal s
  else if n = s.pos then .ok () s
  else discard (n - s.pos) s

/-- The fixed file magic, ASCII Xcur. -/
def fileMagic : Nat := 0x72756358

/-- Embeds `tocTypeComment` from the source. -/
def tocTypeComment : Nat := 0xfffe0001

/-- Embeds `tocTypeImage` from the source. -/
def tocTypeImage : Nat := 0xfffd0002

/-- Modulus of Go's `uint32` arithmetic. -/
def u32Mod : Nat := 4294967296

/-- Embeds `fileToc`: one table-of-contents entry. -/
structure FileToc where
  type : Nat
  subtype : Nat
  position : Nat
deriving DecidableEq

/-- The pixel-format tag attached to decoded images (`format.ARGB8888`). -/
inductive PixelFormat where
  | ARGB8888
deriving DecidableEq

/-- Embeds `format.Image` as far as the decoder populates it: format tag, the
rectangle `image.Rect(0, 0, w, h)` (kept as the pair `(w, h)`), and the
raw pixel bytes. -/
structure FmtImage where
  format : PixelFormat
  rect : Nat × Nat
  pix : Bytes
deriving DecidableEq

/-- Embeds `Comment`: subtype tag and raw comment bytes. -/
structure Comment where
  subtype : Nat
  comment : Bytes
deriving DecidableEq

/-- Embeds `Image`: nominal size (Go `int`, hence `Int`), delay in nanoseconds
(`time.Duration(delay) * time.Millisecond`), hotspot point and pixel data. -/
structure Image where
  nominalSize : Int
  delay : Nat
  hot : Int × Int
  image : FmtImage
deriving DecidableEq

/-- Embeds `Cursor`: comments plus images grouped by nominal size.  The Go
`map[int][]*Image` is embedded as an association list; `addImage` appends
to the group of an existing key and otherwise adds a fresh key, matching
`cursor.Images[k] = append(cursor.Images[k], img)`. -/
structure Cursor where
  comments : List Comment
  images : List (Int × List Image)
deriving DecidableEq

/-- Embeds `cursor.Images[img.NominalSize] = append(..., img)`. -/
def addImage : List (Int × List Image) → Image → List (Int × List Image)
  | [], img => [(img.nominalSize, [img])]
  | (k, grp) :: rest, img =>
    if k = img.nominalSize then (k, grp ++ [img]) :: rest
    else (k, grp) :: addImage rest img

/-- Go map indexing `m[k]` for the image groups (`nil`, i.e. `[]`, when the
key is absent). -/
def lookupGroup : List (Int × List Image) → Int → List Image
  | [], _ => []
  | (k, grp) :: rest, k' => if k = k' then grp else lookupGroup rest k'

/-- The TOC-reading loop of `(d *decoder).header`. -/
def readTocs : Nat → DecSt → DecOut (List FileToc)
  | 0, s => .ok [] s
  | n + 1, s =>
    (uint32 s).bind fun ty s =>
    (uint32 s).bind fun sub s =>
    (uint32 s).bind fun po s =>
    (readTocs n s).bind fun rest s =>
    .ok ({ type := ty, subtype := sub, position := po } :: rest) s

/-- Embeds `(d *decoder).header`: magic check, two discarded fields, TOC count,
then the TOC entries. -/
def header (s : DecSt) : DecOut (List FileToc) :=
  (uint32 s).bind fun magic s =>
  if magic ≠ fileMagic then .err .badMagic s
  else
    (uint32 s).bind fun _ s =>
    (uint32 s).bind fun _ s =>
    (uint32 s).bind fun ntoc s =>
    readTocs ntoc s

/-- Embeds `(d *decoder).tocHeader`: section size (discarded), type and subtype
double-check against the TOC entry, version (discarded). -/
def tocHeader (toc : FileToc) (s : DecSt) : DecOut Unit :=
  (uint32 s).bind fun _ s =>
  (uint32 s).bind fun tocType s =>
  if tocType ≠ toc.type then .err (.tocTypeMismatch toc.type tocType) s
  else
    (uint32 s).bind fun tocSub s =>
    if tocSub ≠ toc.subtype then .err (.tocSubtypeMismatch toc.subtype tocSub) s
    else
      (uint32 s).bind fun _ s => .ok () s

/-- Embeds `(d *decoder).comment`: 4-byte length then exactly that many bytes. -/
def comment (toc : FileToc) (s : DecSt) : DecOut Comment :=
  (uint32 s).bind fun length s =>
  (readBytes length s).bind fun data s =>
  .ok { subtype := toc.subtype, comment := data } s

/-- Embeds `(d *decoder).image`: five 4-byte fields then the pixel payload.  The
payload size `w*h*4` is computed in Go `uint32` arithmetic, hence the
explicit reduction mod `2 ^ 32`. -/
def image (toc : FileToc) (s : DecSt) : DecOut Image :=
  (uint32 s).bind fun w s =>
  (uint32 s).bind fun h s =>
  (uint32 s).bind fun xhot s =>
  (uint32 s).bind fun yhot s =>
  (uint32 s).bind fun delay s =>
  (readBytes ((w * h * 4) % u32Mod) s).bind fun pixels s =>
  .ok { nominalSize := (toc.subtype : Int)
      , delay := delay * 1000000
      , hot := ((xhot : Int), (yhot : Int))
      , image := { format := .ARGB8888, rect := (w, h), pix := pixels } } s

/-- The per-TOC-entry loop of `(d *decoder).Decode`. -/
def decodeLoop : List FileToc → Cursor → DecSt → DecOut Cursor
  | [], c, s => .ok c s
  | toc :: rest, c, s =>
    (seekTo toc.position s).bind fun _ s =>
    (tocHeader toc s).bind fun _ s =>
    if toc.type = tocTypeComment then
      (comment toc s).bind fun cm s =>
        decodeLoop rest { c with comments := c.comments ++ [cm] } s
    else if toc.type = tocTypeImage then
      (image toc s).bind fun img s =>
        decodeLoop rest { c with images := addImage c.images img } s
    else .err (.unknownTocType toc.type) s

/-- Embeds `Decode`: header, then every TOC entry in file order, starting from an
empty cursor. -/
def Decode (input : Bytes) : DecOut Cursor :=
  (header ⟨input, 0⟩).bind fun tocs s =>
  decodeLoop tocs { comments := [], images := [] } s

/-- Embeds `dist` from the source (on Go `int`). -/
def dist (a b : Int) : Int := if a < b then b - a else a - b

/-- Embeds `betterSize` from the source. -/
def betterSize (target a b : Int) : Int :=
  let da := dist target a
  let db := dist target b
  if da < db then a
  else if db < da then b
  else if a > b then a else b

/-- Embeds `(c *Cursor).BestSize`: folds `betterSize` over the keys of the image
map starting from the zero value of `best`. -/
def BestSize (c : Cursor) (size : Int) : Int :=
  (c.images.map (fun kv => kv.1)).foldl (fun best s => betterSize size best s) 0

/-!
The theme resolver of `theme.go`.  The filesystem is abstracted as
`ThemeFS`: the ordered search roots produced by `libraryPaths()` (an
injected external collaborator in the design), the contents of each
`cursors` directory, and the lines of each `index.theme` file, both keyed
by the joined path.  A directory or index entry of `none` models
`fs.ErrNotExist`.  Each directory entry summarizes what the source does
with it: skipped because it is not a regular file or symlink, skipped
because `DecodeFile` failed with `ErrBadMagic`, decoded to a cursor, or a
fatal decode failure.  The mutual recursion between `load` and the
inherited-theme loop is not structurally terminating (the source has no
cycle guard), so `load` takes a fuel parameter and reports exhaustion as
the distinct outcome `LoadRes.outOfFuel`.  `LoadState` additionally
carries a ghost trace of successfully read cursor directories, written
only by `loadDir`; it instruments the order of directory loads and plays
no part in control flow.
-/

/-- Embeds `strings.HasPrefix` on character lists. -/
def hasPrefixCL : List Char → List Char → Bool
  | _, [] => true
  | [], _ :: _ => false
  | c :: cs, p :: ps => c = p && hasPrefixCL cs ps

/-- The `strings.HasPrefix(line, "Inherits")` test of `loadInherits`. -/
def startsWithInherits (l : String) : Bool :=
  hasPrefixCL l.data "Inherits".data

/-- The part of `strings.Cut(line, "=")` that `loadInherits` uses: the text
after the first `=`, or `none` when there is no `=`. -/
def cutAfterEq : List Char → Option (List Char)
  | [] => none
  | c :: cs => if c = '=' then some cs else cutAfterEq cs

/-- Embeds `strings.FieldsFunc`: maximal runs of characters not satisfying `p`;
empty fields are dropped.  `cur` accumulates the current field reversed. -/
def fieldsFunc (p : Char → Bool) (cur : List Char) : List Char → List (List Char)
  | [] => if cur.isEmpty then [] else [cur.reverse]
  | c :: cs =>
    if p c then
      if cur.isEmpty then fieldsFunc p [] cs
      else cur.reverse :: fieldsFunc p [] cs
    else fieldsFunc p (c :: cur) cs

/-- Drops leading whitespace. -/
def dropLeadingSpace : List Char → List Char
  | [] => []
  | c :: cs => if c.isWhitespace then dropLeadingSpace cs else c :: cs

/-- Embeds `strings.TrimSpace` on character lists. -/
def trimSpace (l : List Char) : List Char :=
  dropLeadingSpace ((dropLeadingSpace l.reverse).reverse)

/-- The line scan of `loadInherits`: the first line with prefix `Inherits`
and an `=` wins; its value is split on `:` and `,` and each field is
trimmed.  Lines with the prefix but no `=` are skipped (`continue`). -/
def scanInherits : List String → List String
  | [] => []
  | l :: rest =>
    if startsWithInherits l then
      match cutAfterEq l.data with
      | none => scanInherits rest
      | some after =>
        (fieldsFunc (fun c => c = ':' || c = ',') [] after).map
          fun f => String.mk (trimSpace f)
    else scanInherits rest

/-- Theme-load errors: `fs.ErrNotExist`, a fatal cursor decode failure
wrapped with its path, and the wrappers `load dir`, `load inherited
themes` and `load inherited theme` added by `load`. -/
inductive LErr where
  | notExist
  | loadFileErr (entpath : String)
  | loadDirErr (dir : String) (e : LErr)
  | inheritsErr
  | inheritThemeErr (name : String) (e : LErr)
deriving DecidableEq

/-- What the source does with one directory entry of a cursors directory:
skip it (not a regular file or symlink), skip it (`ErrBadMagic` from
`DecodeFile`), decode it to a cursor, or fail the whole directory load. -/
inductive EntKind where
  | notRegular
  | badMagicFile
  | cursorFile (c : Cursor)
  | decodeFailure
deriving DecidableEq

/-- One entry of a cursors directory. -/
structure DirEnt where
  name : String
  kind : EntKind
deriving DecidableEq

/-- The abstract filesystem a theme resolution runs against. -/
structure ThemeFS where
  roots : List String
  dir : String → Option (List DirEnt)
  index : String → Option (List String)

/-- A ghost trace event: `loadDir` successfully read this directory. -/
inductive TEvent where
  | dirLoad (path : String)
deriving DecidableEq

/-- The mutable state of a theme resolution: the cursor map of `Theme`
(an association list in first-insertion order) plus the ghost trace. -/
structure LoadState where
  cursors : List (String × Cursor)
  trace : List TEvent
deriving DecidableEq

/-- Go map lookup `t.Cursors[name]`. -/
def lookupName : List (String × Cursor) → String → Option Cursor
  | [], _ => none
  | (n, c) :: rest, m => if n = m then some c else lookupName rest m

/-- Embeds `filepath.Join(root, theme, sub)` for the paths the resolver builds. -/
def join3 (root theme sub : String) : String :=
  root ++ "/" ++ theme ++ "/" ++ sub

/-- The entry loop of `(t *Theme).loadDir`: a name already present in the
cursor map is never touched again; non-regular entries and `ErrBadMagic`
files are skipped; a decoded cursor is inserted; any other decode failure
aborts with the entry's path. -/
def loadDirGo (path : String) :
    List DirEnt → List (String × Cursor) → Except LErr (List (String × Cursor))
  | [], cs => .ok cs
  | ent :: rest, cs =>
    if (lookupName cs ent.name).isSome then loadDirGo path rest cs
    else
      match ent.kind with
      | .notRegular => loadDirGo path rest cs
      | .badMagicFile => loadDirGo path rest cs
      | .cursorFile c => loadDirGo path rest (cs ++ [(ent.name, c)])
      | .decodeFailure => .error (.loadFileErr (path ++ "/" ++ ent.name))

/-- Embeds `(t *Theme).loadDir`: `os.ReadDir` then the entry loop; a missing
directory is `fs.ErrNotExist`.  A successful read appends a ghost trace
event. -/
def loadDir (fs : ThemeFS) (path : String) (st : LoadState) :
    Except LErr LoadState :=
  match fs.dir path with
  | none => .error .notExist
  | some ents =>
    match loadDirGo path ents st.cursors with
    | .error e => .error e
    | .ok cs => .ok { cursors := cs, trace := st.trace ++ [.dirLoad path] }

/-- Embeds `loadInherits`: a missing index file is `fs.ErrNotExist`; otherwise the
line scan yields the declared ancestors (possibly none). -/
def loadInherits (content : Option (List String)) : Except LErr (List String) :=
  match content with
  | none => .error .notExist
  | some lines => .ok (scanInherits lines)

/-- The inherits step of `load` (the `loadInherits` call and the error
check `(err != nil) && !errors.Is(err, fs.ErrNotExist)`): a missing index
file means no ancestors; any other failure aborts wrapped. -/
def rootInherits (fs : ThemeFS) (path : String) : Except LErr (List String) :=
  match loadInherits (fs.index path) with
  | .error .notExist => .ok []
  | .error _ => .error .inheritsErr
  | .ok l => .ok l

/-- Result of a (fuelled) theme load. -/
inductive LoadRes where
  | ok (st : LoadState)
  | err (e : LErr)
  | outOfFuel
deriving DecidableEq

/-- The ancestors loop of `load`: `t.load(theme)` for each declared
ancestor in order, wrapping failures with the ancestor's name. -/
def runAncestors (loadRec : String → LoadState → LoadRes) :
    List String → LoadState → LoadRes
  | [], st => .ok st
  | a :: rest, st =>
    match loadRec a st with
    | .outOfFuel => .outOfFuel
    | .err e => .err (.inheritThemeErr a e)
    | .ok st' => runAncestors loadRec rest st'

/-- The search-root loop of `(t *Theme).load`: for each root in order,
load the theme's own `cursors` directory (a missing directory skips to the
next root, any other failure aborts wrapped with the directory), then
resolve the declared ancestors, then `break`. -/
def runRoots (fs : ThemeFS) (theme : String)
    (loadRec : String → LoadState → LoadRes) :
    List String → LoadState → LoadRes
  | [], st => .ok st
  | p :: rest, st =>
    match loadDir fs (join3 p theme "cursors") st with
    | .error .notExist => runRoots fs theme loadRec rest st
    | .error e => .err (.loadDirErr (join3 p theme "cursors") e)
    | .ok st1 =>
      match rootInherits fs (join3 p theme "index.theme") with
      | .error e => .err e
      | .ok names => runAncestors loadRec names st1

/-- Embeds `(t *Theme).load` with fuel for the unguarded recursion into inherited
themes. -/
def load (fs : ThemeFS) : Nat → String → LoadState → LoadRes
  | 0, _, _ => .outOfFuel
  | fuel + 1, theme, st =>
    runRoots fs theme (fun a st' => load fs fuel a st') fs.roots st

/-- Embeds `Theme`: name and cursor map.  The ghost trace is not part of it. -/
structure Theme where
  name : String
  cursors : List (String × Cursor)
deriving DecidableEq

/-- Embeds `LoadTheme`: an empty name means `default`; a fresh theme is populated
by `load`.  On an error the source returns the partially populated theme
alongside the error; no claim inspects that partial map, so it is not
modelled (`[]` stands in).  `none` is fuel exhaustion. -/
def LoadTheme (fs : ThemeFS) (fuel : Nat) (name : String) :
    Option (Theme × Option LErr) :=
  let n := if name = "" then "default" else name
  match load fs fuel n ⟨[], []⟩ with
  | .outOfFuel => none
  | .ok st => some (⟨n, st.cursors⟩, none)
  | .err e => some (⟨n, []⟩, some e)

/-!
Concrete inputs used by the witnesses and counterexamples below.
-/

/-- Little-endian encoding of a 32-bit value as four bytes. -/
def enc32 (v : Nat) : Bytes :=
  [v % 256, v / 256 % 256, v / 65536 % 256, v / 16777216 % 256]

/-- A well-formed file: one comment section and one 1×1 image section. -/
def goodFile : Bytes :=
  enc32 fileMagic ++ enc32 16 ++ enc32 1 ++ enc32 2 ++
  (enc32 tocTypeComment ++ enc32 1 ++ enc32 40) ++
  (enc32 tocTypeImage ++ enc32 32 ++ enc32 64) ++
  (enc32 24 ++ enc32 tocTypeComment ++ enc32 1 ++ enc32 1) ++
  enc32 4 ++ [97, 98, 99, 100] ++
  (enc32 40 ++ enc32 tocTypeImage ++ enc32 32 ++ enc32 1) ++
  enc32 1 ++ enc32 1 ++ enc32 0 ++ enc32 0 ++ enc32 0 ++ [1, 2, 3, 4]

/-- The cursor `goodFile` decodes to. -/
def cGood : Cursor :=
  ⟨[⟨1, [97, 98, 99, 100]⟩],
    [(32, [⟨32, 0, (0, 0), ⟨.ARGB8888, (1, 1), [1, 2, 3, 4]⟩⟩])]⟩

/-- A file whose single image section declares `width = height = 65536`, so
that `w*h*4` wraps to `0` in `uint32` arithmetic, and carries no payload
bytes at all. -/
def overflowFile : Bytes :=
  enc32 fileMagic ++ enc32 16 ++ enc32 1 ++ enc32 1 ++
  (enc32 tocTypeImage ++ enc32 32 ++ enc32 28) ++
  (enc32 36 ++ enc32 tocTypeImage ++ enc32 32 ++ enc32 1) ++
  enc32 65536 ++ enc32 65536 ++ enc32 0 ++ enc32 0 ++ enc32 0

/-- A file whose single image section declares `width = height = 4` but
supplies only 10 of the 64 required payload bytes. -/
def shortFile : Bytes :=
  enc32 fileMagic ++ enc32 16 ++ enc32 1 ++ enc32 1 ++
  (enc32 tocTypeImage ++ enc32 32 ++ enc32 28) ++
  (enc32 36 ++ enc32 tocTypeImage ++ enc32 32 ++ enc32 1) ++
  enc32 4 ++ enc32 4 ++ enc32 0 ++ enc32 0 ++ enc32 0 ++
  [9, 9, 9, 9, 9, 9, 9, 9, 9, 9]

/-- An image-section body: `width = height = 1`, zero hotspot and delay,
and exactly four payload bytes. -/
def c5Input : Bytes :=
  enc32 1 ++ enc32 1 ++ enc32 0 ++ enc32 0 ++ enc32 0 ++ [9, 9, 9, 9]

/-- An image used to populate concrete cursors. -/
def imgOfSize (n : Int) : Image :=
  ⟨n, 0, (0, 0), ⟨.ARGB8888, (1, 1), [0, 0, 0, 0]⟩⟩

/-- A cursor whose image map has the single key 100. -/
def cursor100 : Cursor := ⟨[], [(100, [imgOfSize 100])]⟩

/-- The `left_ptr` cursor of the concrete theme `T`. -/
def curT : Cursor := ⟨[⟨1, []⟩], []⟩

/-- The `left_ptr` cursor of the concrete ancestor theme `A`. -/
def curA : Cursor := ⟨[⟨2, []⟩], []⟩

/-- A concrete filesystem: one root `r`; theme `T` inherits `A`; both
define a cursor file named `left_ptr`, with different contents. -/
def precFS : ThemeFS :=
  ⟨["r"],
   fun p =>
     if p = "r/T/cursors" then some [⟨"left_ptr", .cursorFile curT⟩]
     else if p = "r/A/cursors" then some [⟨"left_ptr", .cursorFile curA⟩]
     else none,
   fun p => if p = "r/T/index.theme" then some ["Inherits=A"] else none⟩

/-- A concrete filesystem whose theme `T` inherits itself. -/
def selfFS : ThemeFS :=
  ⟨["r"],
   fun p => if p = "r/T/cursors" then some [] else none,
   fun p => if p = "r/T/index.theme" then some ["Inherits=T"] else none⟩

/-- A concrete filesystem with one theme directory and no index files. -/
def noInheritFS : ThemeFS :=
  ⟨["r"], fun p => if p = "r/T/cursors" then some [] else none, fun _ => none⟩

/-- A concrete filesystem with one root and nothing in it. -/
def emptyFS : ThemeFS := ⟨["r"], fun _ => none, fun _ => none⟩

/-- A concrete filesystem whose index files exist but declare no
`Inherits` key. -/
def noKeyFS : ThemeFS :=
  ⟨["r"], fun _ => none, fun _ => some ["# comment", "Name=X"]⟩

/-- The ancestors `load` ends up iterating for theme `theme` under root
`p`: the declared ones, or none when the index file is missing (this is
the match on `rootInherits` inside `runRoots`). -/
def ancestorsAt (fs : ThemeFS) (p theme : String) : List String :=
  match rootInherits fs (join3 p theme "index.theme") with
  | .ok l => l
  | .error _ => []

/-!
Observation helpers used to state the theorems: a decoded section is
either a comment or an image, and a successful decode is described by the
list of sections it produced in file order.
-/

/-- The TOC type tag a decoded section came from. -/
def secType : Comment ⊕ Image → Nat
  | .inl _ => tocTypeComment
  | .inr _ => tocTypeImage

/-- The TOC subtype a decoded section came from: a comment keeps it as its
subtype field, an image as its nominal size. -/
def secSub : Comment ⊕ Image → Int
  | .inl cm => (cm.subtype : Int)
  | .inr im => im.nominalSize

/-- The comments among a section list, in order. -/
def secComments : List (Comment ⊕ Image) → List Comment
  | [] => []
  | .inl cm :: rest => cm :: secComments rest
  | .inr _ :: rest => secComments rest

/-- The images among a section list, in order. -/
def secImages : List (Comment ⊕ Image) → List Image
  | [] => []
  | .inl _ :: rest => secImages rest
  | .inr im :: rest => im :: secImages rest

/-- Total number of images over all size groups. -/
def countImages (m : List (Int × List Image)) : Nat :=
  (m.map (fun kv => kv.2.length)).sum

/-!
Theorems.
-/

/-- C1.  The claim says `BestSize` always returns one of the keys of a
non-empty image map, minimizing the distance to the target.  The code
folds `betterSize` starting from the zero value of `best`, so on a cursor
whose only key is 100 and target 10 it returns 0, which is not a key at
all (the only key, 100, is the closest available size) — contradicting the
function's own doc comment, which promises one of the available sizes. -/
theorem bestSize_returns_non_key :
    BestSize cursor100 10 = 0 ∧
    cursor100.images.map (fun kv => kv.1) = [100] ∧
    BestSize cursor100 10 ∉ cursor100.images.map (fun kv => kv.1) := by
  decide

/-- C7.  A backward seek target is a deterministic fatal panic that leaves
the position untouched; a successful forward (or on-target) seek leaves
the position exactly at the target. -/
theorem seekTo_forward_only (s : DecSt) (n : Nat) :
    (n < s.pos → seekTo n s = .fatal s) ∧
    (s.pos ≤ n → ∀ u s', seekTo n s = .ok u s' → s'.pos = n ∧ s'.input = s.input) := by
  constructor
  · intro h
    simp [seekTo, h]
  · intro hle u s' hok
    by_cases h1 : n < s.pos
    · omega
    · by_cases h2 : n = s.pos
      · simp [seekTo, h1, h2] at hok
        subst hok
        exact ⟨h2.symm, rfl⟩
      · simp only [seekTo, if_neg h1, if_neg h2, discard] at hok
        split at hok
        · injection hok with hu hs'
          subst hs'
          refine ⟨?_, rfl⟩
          show s.pos + (n - s.pos) = n
          omega
        · exact absurd hok (by simp)

/-- Witness for C7 at a concrete state: a backward seek from position 2 to
1 is fatal, and a forward seek from 2 to 3 lands on 3. -/
theorem seekTo_forward_only_witness :
    seekTo 1 ⟨[0, 0, 0, 0], 2⟩ = .fatal ⟨[0, 0, 0, 0], 2⟩ ∧
    (DecSt.mk [0, 0, 0, 0] 3).pos = 3 :=
  ⟨(seekTo_forward_only ⟨[0, 0, 0, 0], 2⟩ 1).1 (by decide),
   ((seekTo_forward_only ⟨[0, 0, 0, 0], 2⟩ 3).2 (by decide) ()
      ⟨[0, 0, 0, 0], 3⟩ (by decide)).1⟩

theorem bind_eq_err {α β : Type} (x : DecOut α) (k : α → DecSt → DecOut β)
    (e : DecErr) (s' : DecSt) :
    x.bind k = .err e s' ↔
      x = .err e s' ∨ ∃ a s₁, x = .ok a s₁ ∧ k a s₁ = .err e s' := by
  cases x with
  | ok a s =>
    simp only [DecOut.bind]
    constructor
    · intro h
      exact Or.inr ⟨a, s, rfl, h⟩
    · rintro (h | ⟨a1, s1, he, h⟩)
      · exact absurd h (by simp)
      · injection he with h1 h2
        rw [h1, h2]
        exact h
  | err e1 s1 =>
    simp only [DecOut.bind]
    constructor
    · intro h
      injection h with h1 h2
      exact Or.inl (by rw [h1, h2])
    · rintro (h | ⟨a1, s2, he, h⟩)
      · injection h with h1 h2
        rw [h1, h2]
      · exact absurd he (by simp)
  | fatal s1 =>
    simp only [DecOut.bind]
    constructor
    · intro h
      exact absurd h (by simp)
    · rintro (h | ⟨a1, s2, he, h⟩)
      · exact absurd h (by simp)
      · exact absurd he (by simp)

theorem bind_eq_ok {α β : Type} (x : DecOut α) (k : α → DecSt → DecOut β)
    (b : β) (s' : DecSt) :
    x.bind k = .ok b s' ↔ ∃ a s₁, x = .ok a s₁ ∧ k a s₁ = .ok b s' := by
  cases x with
  | ok a s =>
    simp only [DecOut.bind]
    constructor
    · intro h
      exact ⟨a, s, rfl, h⟩
    · rintro ⟨a1, s1, he, h⟩
      injection he with h1 h2
      rw [h1, h2]
      exact h
  | err e1 s1 =>
    simp only [DecOut.bind]
    constructor
    · intro h
      exact absurd h (by simp)
    · rintro ⟨a1, s2, he, h⟩
      exact absurd he (by simp)
  | fatal s1 =>
    simp only [DecOut.bind]
    constructor
    · intro h
      exact absurd h (by simp)
    · rintro ⟨a1, s2, he, h⟩
      exact absurd he (by simp)

theorem bind_ne_badMagic {α β : Type} {x : DecOut α} {k : α → DecSt → DecOut β}
    (hx : ∀ s', x ≠ .err .badMagic s')
    (hk : ∀ a s₁ s', k a s₁ ≠ .err .badMagic s') :
    ∀ s', x.bind k ≠ .err .badMagic s' := by
  intro s' h
  rcases (bind_eq_err x k .badMagic s').1 h with h' | ⟨a, s₁, _, hk'⟩
  · exact hx s' h'
  · exact hk a s₁ s' hk'

theorem readBytes_ne_badMagic (n : Nat) (s s' : DecSt) :
    readBytes n s ≠ .err .badMagic s' := by
  simp only [readBytes]
  split <;> simp

theorem uint32_ne_badMagic (s s' : DecSt) : uint32 s ≠ .err .badMagic s' := by
  refine bind_ne_badMagic (fun s₁ => readBytes_ne_badMagic 4 s s₁) ?_ s'
  intro a s₁ s₂
  simp

theorem discard_ne_badMagic (n : Nat) (s s' : DecSt) :
    discard n s ≠ .err .badMagic s' := by
  simp only [discard]
  split <;> simp

theorem seekTo_ne_badMagic (n : Nat) (s s' : DecSt) :
    seekTo n s ≠ .err .badMagic s' := by
  simp only [seekTo]
  split
  · simp
  · split
    · simp
    · exact discard_ne_badMagic _ s s'

theorem readTocs_ne_badMagic (n : Nat) :
    ∀ s s', readTocs n s ≠ .err .badMagic s' := by
  induction n with
  | zero => intro s s'; simp [readTocs]
  | succ n ih =>
    intro s s'
    refine bind_ne_badMagic (uint32_ne_badMagic s) ?_ s'
    intro ty s₁ s₂
    refine bind_ne_badMagic (uint32_ne_badMagic s₁) ?_ s₂
    intro sub s₃ s₄
    refine bind_ne_badMagic (uint32_ne_badMagic s₃) ?_ s₄
    intro po s₅ s₆
    refine bind_ne_badMagic (ih s₅) ?_ s₆
    intro rest s₇ s₈
    simp

theorem tocHeader_ne_badMagic (toc : FileToc) (s s' : DecSt) :
    tocHeader toc s ≠ .err .badMagic s' := by
  refine bind_ne_badMagic (uint32_ne_badMagic s) ?_ s'
  intro a s₁ s₂
  refine bind_ne_badMagic (uint32_ne_badMagic s₁) ?_ s₂
  intro ty s₃ s₄
  split
  · simp
  · refine bind_ne_badMagic (uint32_ne_badMagic s₃) ?_ s₄
    intro sub s₅ s₆
    split
    · simp
    · refine bind_ne_badMagic (uint32_ne_badMagic s₅) ?_ s₆
      intro v s₇ s₈
      simp

theorem comment_ne_badMagic (toc : FileToc) (s s' : DecSt) :
    comment toc s ≠ .err .badMagic s' := by
  refine bind_ne_badMagic (uint32_ne_badMagic s) ?_ s'
  intro n s₁ s₂
  refine bind_ne_badMagic (readBytes_ne_badMagic n s₁) ?_ s₂
  intro data s₃ s₄
  simp

theorem image_ne_badMagic (toc : FileToc) (s s' : DecSt) :
    image toc s ≠ .err .badMagic s' := by
  refine bind_ne_badMagic (uint32_ne_badMagic s) ?_ s'
  intro w s₁ s₂
  refine bind_ne_badMagic (uint32_ne_badMagic s₁) ?_ s₂
  intro h s₃ s₄
  refine bind_ne_badMagic (uint32_ne_badMagic s₃) ?_ s₄
  intro xh s₅ s₆
  refine bind_ne_badMagic (uint32_ne_badMagic s₅) ?_ s₆
  intro yh s₇ s₈
  refine bind_ne_badMagic (uint32_ne_badMagic s₇) ?_ s₈
  intro dl s₉ s₁₀
  refine bind_ne_badMagic (readBytes_ne_badMagic _ s₉) ?_ s₁₀
  intro px s₁₁ s₁₂
  simp

theorem decodeLoop_ne_badMagic (tocs : List FileToc) :
    ∀ c s s', decodeLoop tocs c s ≠ .err .badMagic s' := by
  induction tocs with
  | nil => intro c s s'; simp [decodeLoop]
  | cons toc rest ih =>
    intro c s s'
    refine bind_ne_badMagic (seekTo_ne_badMagic toc.position s) ?_ s'
    intro u s₁ s₂
    refine bind_ne_badMagic (tocHeader_ne_badMagic toc s₁) ?_ s₂
    intro v s₃ s₄
    split
    · refine bind_ne_badMagic (comment_ne_badMagic toc s₃) ?_ s₄
      intro cm s₅ s₆
      exact ih _ s₅ s₆
    · split
      · refine bind_ne_badMagic (image_ne_badMagic toc s₃) ?_ s₄
        intro img s₅ s₆
        exact ih _ s₅ s₆
      · simp

/-- C6.  `Decode` fails with the bad-magic error exactly when the input
has at least four bytes and their little-endian value differs from the
magic constant (a shorter input fails with a read error instead, and no
later stage ever produces the bad-magic error); on such a failure exactly
the four magic bytes have been consumed, so no image data has been read. -/
theorem decode_badMagic_iff (input : Bytes) :
    ((∃ s', Decode input = .err .badMagic s') ↔
      4 ≤ input.length ∧ le32 (input.take 4) ≠ fileMagic) ∧
    (∀ s', Decode input = .err .badMagic s' → s' = ⟨input, 4⟩) := by
  by_cases hlen : 4 ≤ input.length
  · have huint : uint32 ⟨input, 0⟩ = .ok (le32 (input.take 4)) ⟨input, 4⟩ := by
      simp [uint32, readBytes, DecOut.bind, hlen]
    by_cases hm : le32 (input.take 4) = fileMagic
    · have hdec : ∀ s', Decode input ≠ .err .badMagic s' := by
        have hhead : ∀ s', header ⟨input, 0⟩ ≠ .err .badMagic s' := by
          intro s' h
          rw [header, huint] at h
          simp only [DecOut.bind, hm, ne_eq, not_true_eq_false, if_false] at h
          revert h
          refine bind_ne_badMagic (uint32_ne_badMagic _) ?_ s'
          intro a s₁ s₂
          refine bind_ne_badMagic (uint32_ne_badMagic _) ?_ s₂
          intro b s₃ s₄
          refine bind_ne_badMagic (uint32_ne_badMagic _) ?_ s₄
          intro ntoc s₅ s₆
          exact readTocs_ne_badMagic ntoc s₅ s₆
        refine bind_ne_badMagic hhead ?_
        intro tocs s₁ s₂
        exact decodeLoop_ne_badMagic tocs _ s₁ s₂
      constructor
      · constructor
        · intro ⟨s', hs⟩
          exact absurd hs (hdec s')
        · intro ⟨_, hne⟩
          exact absurd hm hne
      · intro s' hs
        exact absurd hs (hdec s')
    · have hdec : Decode input = .err .badMagic ⟨input, 4⟩ := by
        rw [Decode, header, huint]
        simp [DecOut.bind, hm]
      constructor
      · exact ⟨fun _ => ⟨hlen, hm⟩, fun _ => ⟨⟨input, 4⟩, hdec⟩⟩
      · intro s' hs
        rw [hdec] at hs
        injection hs with h1 h2
        exact h2.symm
  · have huint : uint32 ⟨input, 0⟩ = .err .eof ⟨input, input.length⟩ := by
      simp [uint32, readBytes, DecOut.bind, hlen]
    have hdec : Decode input = .err .eof ⟨input, input.length⟩ := by
      rw [Decode, header, huint]
      simp [DecOut.bind]
    constructor
    · constructor
      · intro ⟨s', hs⟩
        rw [hdec] at hs
        simp at hs
      · intro ⟨h4, _⟩
        exact absurd h4 hlen
    · intro s' hs
      rw [hdec] at hs
      simp at hs

theorem comment_ok (toc : FileToc) (s : DecSt) (cm : Comment) (s' : DecSt)
    (h : comment toc s = .ok cm s') : cm.subtype = toc.subtype := by
  rw [comment] at h
  rcases (bind_eq_ok _ _ _ _).1 h with ⟨n, s₁, _, h1⟩
  rcases (bind_eq_ok _ _ _ _).1 h1 with ⟨data, s₂, _, h2⟩
  injection h2 with h3 _
  rw [← h3]

theorem image_ok (toc : FileToc) (s : DecSt) (img : Image) (s' : DecSt)
    (h : image toc s = .ok img s') : img.nominalSize = (toc.subtype : Int) := by
  rw [image] at h
  rcases (bind_eq_ok _ _ _ _).1 h with ⟨w, s₁, _, h1⟩
  rcases (bind_eq_ok _ _ _ _).1 h1 with ⟨hh, s₂, _, h2⟩
  rcases (bind_eq_ok _ _ _ _).1 h2 with ⟨xh, s₃, _, h3⟩
  rcases (bind_eq_ok _ _ _ _).1 h3 with ⟨yh, s₄, _, h4⟩
  rcases (bind_eq_ok _ _ _ _).1 h4 with ⟨dl, s₅, _, h5⟩
  rcases (bind_eq_ok _ _ _ _).1 h5 with ⟨px, s₆, _, h6⟩
  injection h6 with h7 _
  rw [← h7]

theorem addImage_lookupGroup (m : List (Int × List Image)) (img : Image) (k : Int) :
    lookupGroup (addImage m img) k =
      lookupGroup m k ++ (if img.nominalSize = k then [img] else []) := by
  induction m with
  | nil =>
    simp only [addImage, lookupGroup]
    by_cases h : img.nominalSize = k <;> simp [h]
  | cons kv rest ih =>
    obtain ⟨k1, grp⟩ := kv
    simp only [addImage]
    by_cases h1 : k1 = img.nominalSize
    · simp only [if_pos h1, lookupGroup]
      by_cases h2 : k1 = k
      · simp [if_pos h2, ← h2, ← h1]
      · have hnk : ¬ img.nominalSize = k := fun hk => h2 (h1.trans hk)
        simp [if_neg h2, hnk]
    · simp only [if_neg h1, lookupGroup]
      by_cases h2 : k1 = k
      · have hnk : ¬ img.nominalSize = k := fun hk => h1 (h2.trans hk.symm)
        simp [if_pos h2, hnk]
      · simp [if_neg h2, ih]

theorem countImages_addImage (m : List (Int × List Image)) (img : Image) :
    countImages (addImage m img) = countImages m + 1 := by
  induction m with
  | nil => simp [addImage, countImages]
  | cons kv rest ih =>
    obtain ⟨k1, grp⟩ := kv
    simp only [addImage]
    by_cases h1 : k1 = img.nominalSize
    · simp [if_pos h1, countImages]
      omega
    · simp only [if_neg h1, countImages, List.map_cons, List.sum_cons]
      simp only [countImages] at ih
      omega

theorem sec_split_length (secs : List (Comment ⊕ Image)) :
    (secComments secs).length + (secImages secs).length = secs.length := by
  induction secs with
  | nil => simp [secComments, secImages]
  | cons sec rest ih =>
    cases sec <;> simp [secComments, secImages] <;> omega

theorem decodeLoop_shape (tocs : List FileToc) :
    ∀ c s c' s', decodeLoop tocs c s = .ok c' s' →
    ∃ secs : List (Comment ⊕ Image),
      secs.length = tocs.length ∧
      secs.map secType = tocs.map (fun t => t.type) ∧
      secs.map secSub = tocs.map (fun t => (t.subtype : Int)) ∧
      c'.comments = c.comments ++ secComments secs ∧
      (∀ k, lookupGroup c'.images k =
        lookupGroup c.images k ++
          (secImages secs).filter (fun im => im.nominalSize == k)) := by
  induction tocs with
  | nil =>
    intro c s c' s' h
    simp only [decodeLoop] at h
    injection h with h1 h2
    subst h1
    exact ⟨[], by simp [secComments, secImages, lookupGroup]⟩
  | cons toc rest ih =>
    intro c s c' s' h
    simp only [decodeLoop] at h
    rcases (bind_eq_ok _ _ _ _).1 h with ⟨u, s₁, hseek, h1⟩
    rcases (bind_eq_ok _ _ _ _).1 h1 with ⟨v, s₂, hth, h2⟩
    by_cases hc : toc.type = tocTypeComment
    · rw [if_pos hc] at h2
      rcases (bind_eq_ok _ _ _ _).1 h2 with ⟨cm, s₃, hcm, h3⟩
      obtain ⟨secs', hlen, hty, hsub, hcoms, hgrps⟩ := ih _ _ _ _ h3
      refine ⟨.inl cm :: secs', ?_, ?_, ?_, ?_, ?_⟩
      · simp [hlen]
      · simp [secType, hty, hc]
      · simp only [List.map_cons, secSub, hsub, comment_ok toc s₂ cm s₃ hcm]
      · simp only [hcoms, secComments]
        simp
      · intro k
        simpa [secImages] using hgrps k
    · rw [if_neg hc] at h2
      by_cases hi : toc.type = tocTypeImage
      · rw [if_pos hi] at h2
        rcases (bind_eq_ok _ _ _ _).1 h2 with ⟨img, s₃, himg, h3⟩
        obtain ⟨secs', hlen, hty, hsub, hcoms, hgrps⟩ := ih _ _ _ _ h3
        refine ⟨.inr img :: secs', ?_, ?_, ?_, ?_, ?_⟩
        · simp [hlen]
        · simp [secType, hty, hi]
        · simp only [List.map_cons, secSub, hsub, image_ok toc s₂ img s₃ himg]
        · simpa [secComments] using hcoms
        · intro k
          have hg := hgrps k
          rw [addImage_lookupGroup] at hg
          simp only [secImages, List.filter_cons]
          by_cases hk : img.nominalSize = k
          · simp only [hg, if_pos hk, List.append_assoc]
            simp [hk]
          · simp only [hg, if_neg hk, List.append_nil]
            simp [hk]
      · rw [if_neg hi] at h2
        exact absurd h2 (by simp)

theorem decodeLoop_count (tocs : List FileToc) :
    ∀ c s c' s', decodeLoop tocs c s = .ok c' s' →
    c'.comments.length + countImages c'.images =
      c.comments.length + countImages c.images + tocs.length := by
  induction tocs with
  | nil =>
    intro c s c' s' h
    simp only [decodeLoop] at h
    injection h with h1 h2
    subst h1
    simp
  | cons toc rest ih =>
    intro c s c' s' h
    simp only [decodeLoop] at h
    rcases (bind_eq_ok _ _ _ _).1 h with ⟨u, s₁, hseek, h1⟩
    rcases (bind_eq_ok _ _ _ _).1 h1 with ⟨v, s₂, hth, h2⟩
    by_cases hc : toc.type = tocTypeComment
    · rw [if_pos hc] at h2
      rcases (bind_eq_ok _ _ _ _).1 h2 with ⟨cm, s₃, hcm, h3⟩
      have := ih _ _ _ _ h3
      simp only [List.length_append, List.length_cons, List.length_nil] at this
      simp only [List.length_cons]
      omega
    · rw [if_neg hc] at h2
      by_cases hi : toc.type = tocTypeImage
      · rw [if_pos hi] at h2
        rcases (bind_eq_ok _ _ _ _).1 h2 with ⟨img, s₃, himg, h3⟩
        have := ih _ _ _ _ h3
        have h4 : ({ c with images := addImage c.images img } : Cursor).images =
            addImage c.images img := rfl
        have h5 : ({ c with images := addImage c.images img } : Cursor).comments =
            c.comments := rfl
        rw [h4, h5, countImages_addImage] at this
        simp only [List.length_cons]
        omega
      · rw [if_neg hi] at h2
        exact absurd h2 (by simp)

/-- C4.  A successful decode of a file whose header declares `N` TOC
entries produces exactly `N` sections: there is a list of sections, one
per TOC entry in file order, whose type tags and subtypes match the TOC
entries index by index; the cursor's comments are exactly the comment
sections in file order; the size group of every key `k` consists exactly
of the image sections with nominal size `k` in file order; hence every
image stored under size `s` has nominal size `s`, and the comment count
plus the image count equals the TOC entry count. -/
theorem decode_sections (input : Bytes) (c : Cursor) (s' : DecSt)
    (hdec : Decode input = .ok c s') :
    ∃ tocs s₁ secs, header ⟨input, 0⟩ = .ok tocs s₁ ∧
      secs.length = tocs.length ∧
      secs.map secType = tocs.map (fun t => t.type) ∧
      secs.map secSub = tocs.map (fun t => (t.subtype : Int)) ∧
      c.comments = secComments secs ∧
      (∀ k, lookupGroup c.images k =
        (secImages secs).filter (fun im => im.nominalSize == k)) ∧
      (∀ k im, im ∈ lookupGroup c.images k → im.nominalSize = k) ∧
      c.comments.length + countImages c.images = tocs.length := by
  rw [Decode] at hdec
  rcases (bind_eq_ok _ _ _ _).1 hdec with ⟨tocs, s₁, hhead, hloop⟩
  obtain ⟨secs, hlen, hty, hsub, hcoms, hgrps⟩ := decodeLoop_shape tocs _ _ _ _ hloop
  have hcount := decodeLoop_count tocs _ _ _ _ hloop
  refine ⟨tocs, s₁, secs, hhead, hlen, hty, hsub, ?_, ?_, ?_, ?_⟩
  · simpa using hcoms
  · intro k
    simpa [lookupGroup] using hgrps k
  · intro k im him
    have hg := hgrps k
    simp only [lookupGroup, List.nil_append] at hg
    rw [hg] at him
    have := List.of_mem_filter him
    simpa using this
  · simpa [countImages] using hcount

/-- Witness for C4: the concrete well-formed file with one comment TOC
entry and one image TOC entry decodes to a cursor with exactly those two
sections. -/
theorem decode_sections_witness :
    Decode goodFile = .ok cGood ⟨goodFile, 104⟩ ∧
    ∃ tocs s₁ secs, header ⟨goodFile, 0⟩ = .ok tocs s₁ ∧
      secs.length = tocs.length ∧
      secs.map secType = tocs.map (fun t => t.type) ∧
      secs.map secSub = tocs.map (fun t => (t.subtype : Int)) ∧
      cGood.comments = secComments secs ∧
      (∀ k, lookupGroup cGood.images k =
        (secImages secs).filter (fun im => im.nominalSize == k)) ∧
      (∀ k im, im ∈ lookupGroup cGood.images k → im.nominalSize = k) ∧
      cGood.comments.length + countImages cGood.images = tocs.length :=
  ⟨by decide, decode_sections goodFile cGood ⟨goodFile, 104⟩ (by decide)⟩

theorem le32_enc32 (v : Nat) (hv : v < u32Mod) : le32 (enc32 v) = v := by
  rw [u32Mod] at hv
  simp only [enc32, le32]
  omega

theorem uint32_at (input : Bytes) (pos v : Nat) (rest : Bytes)
    (hv : v < u32Mod) (hdrop : input.drop pos = enc32 v ++ rest) :
    uint32 ⟨input, pos⟩ = .ok v ⟨input, pos + 4⟩ ∧
      input.drop (pos + 4) = rest ∧ pos + 4 ≤ input.length := by
  have henc : (enc32 v).length = 4 := rfl
  have hlen : input.length - pos = 4 + rest.length := by
    have h := congrArg List.length hdrop
    simp only [List.length_drop, List.length_append, henc] at h
    exact h
  have hple : pos + 4 ≤ input.length := by omega
  refine ⟨?_, ?_, hple⟩
  · have hrb : readBytes 4 ⟨input, pos⟩ =
        .ok ((input.drop pos).take 4) ⟨input, pos + 4⟩ := by
      simp only [readBytes]
      rw [if_pos hple]
    simp only [uint32, hrb, DecOut.bind]
    rw [hdrop, List.take_left' henc, le32_enc32 v hv]
  · rw [← List.drop_drop, hdrop, List.drop_left' henc]

/-- C5, amended for the `uint32` wrap-around: the image-section decoder
reads exactly `(width * height * 4) mod 2 ^ 32` payload bytes after its
five header fields; when the input holds at least that many further bytes
it succeeds with the position advanced by exactly that amount, and when it
holds fewer the read fails with an end-of-input error, which `Decode`
propagates, as on the concrete file declaring a 4×4 image with only 10
payload bytes. -/
theorem image_reads_exactly :
    (∀ (toc : FileToc) (input : Bytes) (pos w h xh yh dl : Nat) (rest : Bytes),
      w < u32Mod → h < u32Mod → xh < u32Mod → yh < u32Mod → dl < u32Mod →
      input.drop pos =
        enc32 w ++ enc32 h ++ enc32 xh ++ enc32 yh ++ enc32 dl ++ rest →
      ((w * h * 4) % u32Mod ≤ rest.length →
        ∃ img, image toc ⟨input, pos⟩ =
            .ok img ⟨input, pos + 20 + (w * h * 4) % u32Mod⟩ ∧
          img.image.pix.length = (w * h * 4) % u32Mod ∧
          img.image.rect = (w, h)) ∧
      (rest.length < (w * h * 4) % u32Mod →
        image toc ⟨input, pos⟩ = .err .eof ⟨input, input.length⟩)) ∧
    Decode shortFile = .err .eof ⟨shortFile, 74⟩ := by
  constructor
  · intro toc input pos w h xh yh dl rest hw hh hxh hyh hdl hdrop
    obtain ⟨hu1, hd1, hp1⟩ := uint32_at input pos w _ hw hdrop
    obtain ⟨hu2, hd2, hp2⟩ := uint32_at input (pos + 4) h _ hh hd1
    obtain ⟨hu3, hd3, hp3⟩ := uint32_at input (pos + 4 + 4) xh _ hxh hd2
    obtain ⟨hu4, hd4, hp4⟩ := uint32_at input (pos + 4 + 4 + 4) yh _ hyh hd3
    obtain ⟨hu5, hd5, hp5⟩ := uint32_at input (pos + 4 + 4 + 4 + 4) dl _ hdl hd4
    have hrest : input.length - (pos + 4 + 4 + 4 + 4 + 4) = rest.length := by
      have h := congrArg List.length hd5
      simpa using h
    have himg : image toc ⟨input, pos⟩ =
        (readBytes ((w * h * 4) % u32Mod) ⟨input, pos + 4 + 4 + 4 + 4 + 4⟩).bind
          fun pixels s =>
            .ok { nominalSize := (toc.subtype : Int)
                , delay := dl * 1000000
                , hot := ((xh : Int), (yh : Int))
                , image := { format := .ARGB8888, rect := (w, h), pix := pixels } } s := by
      rw [image, hu1]
      simp only [DecOut.bind]
      rw [hu2]
      simp only [DecOut.bind]
      rw [hu3]
      simp only [DecOut.bind]
      rw [hu4]
      simp only [DecOut.bind]
      rw [hu5]
    constructor
    · intro hfit
      have hcond : pos + 4 + 4 + 4 + 4 + 4 + (w * h * 4) % u32Mod ≤ input.length := by
        omega
      have hrb : readBytes ((w * h * 4) % u32Mod) ⟨input, pos + 4 + 4 + 4 + 4 + 4⟩ =
          .ok ((input.drop (pos + 4 + 4 + 4 + 4 + 4)).take ((w * h * 4) % u32Mod))
            ⟨input, pos + 4 + 4 + 4 + 4 + 4 + (w * h * 4) % u32Mod⟩ := by
        simp only [readBytes]
        rw [if_pos hcond]
      refine ⟨{ nominalSize := (toc.subtype : Int)
              , delay := dl * 1000000
              , hot := ((xh : Int), (yh : Int))
              , image := { format := .ARGB8888, rect := (w, h)
                         , pix := (input.drop (pos + 4 + 4 + 4 + 4 + 4)).take
                             ((w * h * 4) % u32Mod) } }, ?_, ?_, rfl⟩
      · rw [himg, hrb]
        simp only [DecOut.bind]
      · simp only [hd5]
        simp [List.length_take]
        omega
    · intro hshort
      have hcond : ¬ pos + 4 + 4 + 4 + 4 + 4 + (w * h * 4) % u32Mod ≤ input.length := by
        omega
      have hrb : readBytes ((w * h * 4) % u32Mod) ⟨input, pos + 4 + 4 + 4 + 4 + 4⟩ =
          .err .eof ⟨input, input.length⟩ := by
        simp only [readBytes]
        rw [if_neg hcond]
      rw [himg, hrb]
      simp only [DecOut.bind]
  · decide

/-- Counterexample to C5 as stated: a section declaring
`width = height = 65536` makes `width * height * 4` wrap to 0 in `uint32`
arithmetic, so this 64-byte file — which holds none of the mathematically
required `65536 * 65536 * 4` payload bytes — decodes successfully instead
of failing with a read error. -/
theorem decode_overflow_succeeds :
    Decode overflowFile =
      .ok ⟨[], [(32, [⟨32, 0, (0, 0), ⟨.ARGB8888, (65536, 65536), []⟩⟩])]⟩
        ⟨overflowFile, 64⟩ ∧
    overflowFile.length = 64 ∧ 64 < 65536 * 65536 * 4 := by
  decide

/-- Witness for C5 at a concrete image section: a 1×1 image with exactly
four payload bytes decodes with the position advanced by exactly 24. -/
theorem image_reads_exactly_witness :
    ∃ img, image ⟨tocTypeImage, 32, 28⟩ ⟨c5Input, 0⟩ = .ok img ⟨c5Input, 24⟩ ∧
      img.image.pix.length = 1 * 1 * 4 % u32Mod ∧ img.image.rect = (1, 1) :=
  (image_reads_exactly.1 ⟨tocTypeImage, 32, 28⟩ c5Input 0 1 1 0 0 0 [9, 9, 9, 9]
    (by decide) (by decide) (by decide) (by decide) (by decide) (by decide)).1
    (by decide)

/-- Witness for C6: a file starting with four zero bytes fails with the
bad-magic error, with exactly four bytes consumed. -/
theorem decode_badMagic_iff_witness :
    Decode [0, 0, 0, 0, 5] = .err .badMagic ⟨[0, 0, 0, 0, 5], 4⟩ := by
  obtain ⟨s', hs⟩ := (decode_badMagic_iff [0, 0, 0, 0, 5]).1.mpr (by decide)
  have heq := (decode_badMagic_iff [0, 0, 0, 0, 5]).2 s' hs
  rw [heq] at hs
  exact hs

theorem lookupName_append (cs : List (String × Cursor)) (n : String) (c : Cursor)
    (h : lookupName cs n = some c) (extra : List (String × Cursor)) :
    lookupName (cs ++ extra) n = some c := by
  induction cs with
  | nil => simp [lookupName] at h
  | cons kv rest ih =>
    obtain ⟨n1, c1⟩ := kv
    by_cases hn : n1 = n
    · simp only [List.cons_append, lookupName, if_pos hn] at h ⊢
      exact h
    · simp only [List.cons_append, lookupName, if_neg hn] at h ⊢
      exact ih h

theorem loadDirGo_preserves (path : String) (ents : List DirEnt) :
    ∀ cs cs', loadDirGo path ents cs = .ok cs' →
    ∀ n c, lookupName cs n = some c → lookupName cs' n = some c := by
  induction ents with
  | nil =>
    intro cs cs' h n c hl
    simp only [loadDirGo] at h
    injection h with h1
    rw [← h1]
    exact hl
  | cons ent rest ih =>
    intro cs cs' h n c hl
    simp only [loadDirGo] at h
    split at h
    · exact ih _ _ h n c hl
    · split at h
      · exact ih _ _ h n c hl
      · exact ih _ _ h n c hl
      · exact ih _ _ h n c (lookupName_append _ _ _ hl _)
      · exact absurd h (by simp)

theorem loadDir_ok (fs : ThemeFS) (path : String) (st st' : LoadState)
    (h : loadDir fs path st = .ok st') :
    (∀ n c, lookupName st.cursors n = some c → lookupName st'.cursors n = some c) ∧
    st'.trace = st.trace ++ [.dirLoad path] := by
  rw [loadDir] at h
  split at h
  · exact absurd h (by simp)
  · rename_i ents hdir
    split at h
    · exact absurd h (by simp)
    · rename_i cs hgo
      injection h with h1
      rw [← h1]
      exact ⟨fun n c hl => loadDirGo_preserves path ents _ _ hgo n c hl, rfl⟩

theorem runAncestors_preserves (loadRec : String → LoadState → LoadRes)
    (hrec : ∀ a st st', loadRec a st = .ok st' →
      ∀ n c, lookupName st.cursors n = some c → lookupName st'.cursors n = some c) :
    ∀ (names : List String) (st st' : LoadState),
      runAncestors loadRec names st = .ok st' →
    ∀ n c, lookupName st.cursors n = some c → lookupName st'.cursors n = some c := by
  intro names
  induction names with
  | nil =>
    intro st st' h n c hl
    simp only [runAncestors] at h
    injection h with h1
    rw [← h1]
    exact hl
  | cons a rest ih =>
    intro st st' h n c hl
    simp only [runAncestors] at h
    split at h
    · exact absurd h (by simp)
    · exact absurd h (by simp)
    · rename_i st1 hr
      exact ih st1 st' h n c (hrec a st st1 hr n c hl)

theorem runRoots_preserves (fs : ThemeFS) (theme : String)
    (loadRec : String → LoadState → LoadRes)
    (hrec : ∀ a st st', loadRec a st = .ok st' →
      ∀ n c, lookupName st.cursors n = some c → lookupName st'.cursors n = some c) :
    ∀ (roots : List String) (st st' : LoadState),
      runRoots fs theme loadRec roots st = .ok st' →
    ∀ n c, lookupName st.cursors n = some c → lookupName st'.cursors n = some c := by
  intro roots
  induction roots with
  | nil =>
    intro st st' h n c hl
    simp only [runRoots] at h
    injection h with h1
    rw [← h1]
    exact hl
  | cons p rest ih =>
    intro st st' h n c hl
    simp only [runRoots] at h
    split at h
    · exact ih st st' h n c hl
    · exact absurd h (by simp)
    · rename_i st1 hld
      split at h
      · exact absurd h (by simp)
      · rename_i names hri
        exact runAncestors_preserves loadRec hrec names st1 st' h n c
          ((loadDir_ok fs _ st st1 hld).1 n c hl)

theorem load_preserves (fs : ThemeFS) :
    ∀ (fuel : Nat) (theme : String) (st st' : LoadState),
      load fs fuel theme st = .ok st' →
    ∀ n c, lookupName st.cursors n = some c → lookupName st'.cursors n = some c := by
  intro fuel
  induction fuel with
  | zero =>
    intro theme st st' h
    simp [load] at h
  | succ fuel ih =>
    intro theme st st' h
    simp only [load] at h
    exact runRoots_preserves fs theme _ (fun a st1 st2 hr => ih a st1 st2 hr)
      fs.roots st st' h

theorem runAncestors_trace (loadRec : String → LoadState → LoadRes)
    (hrec : ∀ a st st', loadRec a st = .ok st' → ∃ t, st'.trace = st.trace ++ t) :
    ∀ (names : List String) (st st' : LoadState),
      runAncestors loadRec names st = .ok st' → ∃ t, st'.trace = st.trace ++ t := by
  intro names
  induction names with
  | nil =>
    intro st st' h
    simp only [runAncestors] at h
    injection h with h1
    exact ⟨[], by rw [← h1]; simp⟩
  | cons a rest ih =>
    intro st st' h
    simp only [runAncestors] at h
    split at h
    · exact absurd h (by simp)
    · exact absurd h (by simp)
    · rename_i st1 hr
      obtain ⟨t1, ht1⟩ := hrec a st st1 hr
      obtain ⟨t2, ht2⟩ := ih st1 st' h
      exact ⟨t1 ++ t2, by rw [ht2, ht1, List.append_assoc]⟩

theorem runRoots_trace (fs : ThemeFS) (theme : String)
    (loadRec : String → LoadState → LoadRes)
    (hrec : ∀ a st st', loadRec a st = .ok st' → ∃ t, st'.trace = st.trace ++ t) :
    ∀ (roots : List String) (st st' : LoadState),
      runRoots fs theme loadRec roots st = .ok st' →
      st'.trace = st.trace ∨
      ∃ p t, p ∈ roots ∧
        st'.trace = st.trace ++ (TEvent.dirLoad (join3 p theme "cursors") :: t) := by
  intro roots
  induction roots with
  | nil =>
    intro st st' h
    simp only [runRoots] at h
    injection h with h1
    exact Or.inl (by rw [← h1])
  | cons p rest ih =>
    intro st st' h
    simp only [runRoots] at h
    split at h
    · rcases ih st st' h with h1 | ⟨p1, t, hp1, ht⟩
      · exact Or.inl h1
      · exact Or.inr ⟨p1, t, List.mem_cons_of_mem p hp1, ht⟩
    · exact absurd h (by simp)
    · rename_i st1 hld
      split at h
      · exact absurd h (by simp)
      · rename_i names hri
        obtain ⟨t, ht⟩ := runAncestors_trace loadRec hrec names st1 st' h
        refine Or.inr ⟨p, t, List.mem_cons_self p rest, ?_⟩
        rw [ht, (loadDir_ok fs _ st st1 hld).2, List.append_assoc]
        rfl

theorem load_trace (fs : ThemeFS) :
    ∀ (fuel : Nat) (theme : String) (st st' : LoadState),
      load fs fuel theme st = .ok st' → ∃ t, st'.trace = st.trace ++ t := by
  intro fuel
  induction fuel with
  | zero =>
    intro theme st st' h
    simp [load] at h
  | succ fuel ih =>
    intro theme st st' h
    simp only [load] at h
    rcases runRoots_trace fs theme _ (fun a st1 st2 hr => ih a st1 st2 hr)
        fs.roots st st' h with h1 | ⟨p, t, _, ht⟩
    · exact ⟨[], by rw [h1]; simp⟩
    · exact ⟨_, ht⟩

/-- C2.  Once a cursor name is bound in the cursor map, no later directory
load and no later inherited theme changes its binding during a theme
resolution; and on the concrete filesystem where theme `T` inherits `A`
and both define `left_ptr`, the resolved theme holds `T`'s version. -/
theorem theme_first_load_wins :
    (∀ (fs : ThemeFS) (fuel : Nat) (theme : String) (st st' : LoadState),
      load fs fuel theme st = .ok st' →
      ∀ n c, lookupName st.cursors n = some c → lookupName st'.cursors n = some c) ∧
    LoadTheme precFS 10 "T" = some (⟨"T", [("left_ptr", curT)]⟩, none) :=
  ⟨fun fs => load_preserves fs, by decide⟩

/-- Witness for C2: a binding present before the load (`x`) survives a
full resolution of theme `T`, which also adds `T`'s own `left_ptr`. -/
theorem theme_first_load_wins_witness :
    lookupName
      (LoadState.mk [("x", curA), ("left_ptr", curT)]
        [.dirLoad "r/T/cursors", .dirLoad "r/A/cursors"]).cursors "x" = some curA :=
  theme_first_load_wins.1 precFS 10 "T" ⟨[("x", curA)], []⟩
    ⟨[("x", curA), ("left_ptr", curT)],
      [.dirLoad "r/T/cursors", .dirLoad "r/A/cursors"]⟩
    (by decide) "x" curA (by decide)

/-- Counterexample to C3 as stated: on the concrete filesystem where
theme `T` inherits `A`, the ghost trace of the resolution shows `T`'s own
cursors directory being read strictly before the ancestor `A`'s, so the
ancestor is not resolved before the directory's own cursor files are
loaded; `T`'s own `left_ptr` survives because of the first-load-wins map
check, not because of ancestor-first ordering. -/
theorem load_ancestor_after_own_dir_cex :
    load precFS 10 "T" ⟨[], []⟩ =
      .ok ⟨[("left_ptr", curT)],
        [.dirLoad "r/T/cursors", .dirLoad "r/A/cursors"]⟩ ∧
    ancestorsAt precFS "r" "T" = ["A"] ∧
    [TEvent.dirLoad "r/T/cursors", TEvent.dirLoad "r/A/cursors"].indexOf
        (.dirLoad "r/T/cursors") <
      [TEvent.dirLoad "r/T/cursors", TEvent.dirLoad "r/A/cursors"].indexOf
        (.dirLoad "r/A/cursors") := by
  decide

/-- C3, amended: the directory loaded first during a theme resolution is
the theme's *own* cursors directory under one of the search roots; every
inherited ancestor's directory is read only after it (the source calls
`loadDir` on the theme's own directory before recursing into the
ancestors declared by `index.theme`). -/
theorem load_own_dir_first (fs : ThemeFS) (fuel : Nat) (theme : String)
    (st st' : LoadState) (h : load fs fuel theme st = .ok st')
    (hne : st'.trace ≠ st.trace) :
    ∃ p t, p ∈ fs.roots ∧
      st'.trace = st.trace ++ (TEvent.dirLoad (join3 p theme "cursors") :: t) := by
  cases fuel with
  | zero => simp [load] at h
  | succ fuel =>
    simp only [load] at h
    rcases runRoots_trace fs theme _
        (fun a st1 st2 hr => load_trace fs fuel a st1 st2 hr)
        fs.roots st st' h with h1 | ⟨p, t, hp, ht⟩
    · exact absurd h1 hne
    · exact ⟨p, t, hp, ht⟩

/-- Witness for C3 (amended) on the concrete filesystem: the first trace
event of the resolution of `T` is the read of `T`'s own directory under
root `r`. -/
theorem load_own_dir_first_witness :
    ∃ p t, p ∈ precFS.roots ∧
      (LoadState.mk [("left_ptr", curT)]
          [.dirLoad "r/T/cursors", .dirLoad "r/A/cursors"]).trace =
        (LoadState.mk [] []).trace ++
          (TEvent.dirLoad (join3 p "T" "cursors") :: t) :=
  load_own_dir_first precFS 10 "T" ⟨[], []⟩
    ⟨[("left_ptr", curT)], [.dirLoad "r/T/cursors", .dirLoad "r/A/cursors"]⟩
    (by decide) (by decide)

theorem load_selfFS_diverges : ∀ (fuel : Nat) (st : LoadState),
    load selfFS fuel "T" st = .outOfFuel := by
  intro fuel
  induction fuel with
  | zero => intro st; simp [load]
  | succ fuel ih =>
    intro st
    have hld : loadDir selfFS (join3 "r" "T" "cursors") st =
        .ok ⟨st.cursors, st.trace ++ [.dirLoad (join3 "r" "T" "cursors")]⟩ := by
      rw [loadDir]
      have hdir : selfFS.dir (join3 "r" "T" "cursors") = some [] := by decide
      rw [hdir]
      rfl
    have hri : rootInherits selfFS (join3 "r" "T" "index.theme") = .ok ["T"] := rfl
    simp only [load]
    show runRoots selfFS "T" (fun a st' => load selfFS fuel a st') ["r"] st =
      .outOfFuel
    simp only [runRoots]
    rw [hld, hri]
    show runAncestors (fun a st' => load selfFS fuel a st') ["T"]
      ⟨st.cursors, st.trace ++ [.dirLoad (join3 "r" "T" "cursors")]⟩ = .outOfFuel
    simp only [runAncestors]
    rw [ih]

theorem runAncestors_no_oof (loadRec : String → LoadState → LoadRes) :
    ∀ (names : List String),
      (∀ a, a ∈ names → ∀ st, loadRec a st ≠ .outOfFuel) →
    ∀ st, runAncestors loadRec names st ≠ .outOfFuel := by
  intro names
  induction names with
  | nil => intro h st; simp [runAncestors]
  | cons a rest ih =>
    intro h st
    simp only [runAncestors]
    split
    · rename_i heq
      exact absurd heq (h a (List.mem_cons_self a rest) st)
    · simp
    · rename_i st1 heq
      exact ih (fun b hb st2 => h b (List.mem_cons_of_mem a hb) st2) st1

theorem runRoots_no_oof (fs : ThemeFS) (theme : String)
    (loadRec : String → LoadState → LoadRes) :
    ∀ (roots : List String),
      (∀ p, p ∈ roots → ∀ a, a ∈ ancestorsAt fs p theme →
        ∀ st, loadRec a st ≠ .outOfFuel) →
    ∀ st, runRoots fs theme loadRec roots st ≠ .outOfFuel := by
  intro roots
  induction roots with
  | nil => intro h st; simp [runRoots]
  | cons p rest ih =>
    intro h st
    simp only [runRoots]
    split
    · exact ih (fun q hq => h q (List.mem_cons_of_mem p hq)) st
    · simp
    · rename_i st1 hld
      split
      · simp
      · rename_i names hri
        apply runAncestors_no_oof loadRec names
        intro a ha st2
        have hanc : ancestorsAt fs p theme = names := by
          rw [ancestorsAt, hri]
        exact h p (List.mem_cons_self p rest) a (hanc ▸ ha) st2

theorem load_no_oof (fs : ThemeFS) (rank : String → Nat)
    (hrank : ∀ p theme a, p ∈ fs.roots → a ∈ ancestorsAt fs p theme →
      rank a < rank theme) :
    ∀ (fuel : Nat) (theme : String) (st : LoadState),
      rank theme < fuel → load fs fuel theme st ≠ .outOfFuel := by
  intro fuel
  induction fuel with
  | zero => intro theme st h; omega
  | succ fuel ih =>
    intro theme st h
    simp only [load]
    apply runRoots_no_oof fs theme _ fs.roots
    intro p hp a ha st2
    apply ih a st2
    have := hrank p theme a hp ha
    omega

/-- C8.  The inheritance recursion has no cycle guard: on the concrete
filesystem whose theme `T` declares `Inherits=T`, `load` exhausts any
amount of fuel (it recurses without bound); while for every filesystem
whose inherits relation admits a strictly decreasing rank (in particular
any finite acyclic configuration), `load` with fuel above the rank of the
requested theme never runs out. -/
theorem theme_inheritance_no_cycle_guard :
    (∀ (fuel : Nat) (st : LoadState), load selfFS fuel "T" st = .outOfFuel) ∧
    (∀ (fs : ThemeFS) (rank : String → Nat),
      (∀ p theme a, p ∈ fs.roots → a ∈ ancestorsAt fs p theme →
        rank a < rank theme) →
      ∀ (fuel : Nat) (theme : String) (st : LoadState),
        rank theme < fuel → load fs fuel theme st ≠ .outOfFuel) :=
  ⟨load_selfFS_diverges,
   fun fs rank hrank fuel theme st h => load_no_oof fs rank hrank fuel theme st h⟩

/-- Witness for C8: the self-inheriting filesystem exhausts fuel 3, while
the acyclic one (no index files at all) terminates with fuel 1. -/
theorem theme_inheritance_no_cycle_guard_witness :
    load selfFS 3 "T" ⟨[], []⟩ = .outOfFuel ∧
    load noInheritFS 1 "T" ⟨[], []⟩ ≠ .outOfFuel :=
  ⟨theme_inheritance_no_cycle_guard.1 3 ⟨[], []⟩,
   theme_inheritance_no_cycle_guard.2 noInheritFS (fun _ => 0)
     (by
       intro p theme a hp ha
       simp [ancestorsAt, rootInherits, loadInherits, noInheritFS] at ha)
     1 "T" ⟨[], []⟩ (by decide)⟩

theorem rootInherits_none (fs : ThemeFS) (path : String)
    (h : fs.index path = none) : rootInherits fs path = .ok [] := by
  simp [rootInherits, loadInherits, h]

theorem rootInherits_some (fs : ThemeFS) (path : String) (lines : List String)
    (h : fs.index path = some lines) :
    rootInherits fs path = .ok (scanInherits lines) := by
  rw [rootInherits, h]
  rfl

theorem scanInherits_no_key (lines : List String)
    (h : ∀ l, l ∈ lines → startsWithInherits l = false) :
    scanInherits lines = [] := by
  induction lines with
  | nil => rfl
  | cons l rest ih =>
    simp only [scanInherits]
    rw [h l (List.mem_cons_self l rest)]
    simp only [Bool.false_eq_true, if_false]
    exact ih (fun l2 hl2 => h l2 (List.mem_cons_of_mem l hl2))

/-- C9.  A missing `index.theme`, or one without an `Inherits` key, is not
an error during theme resolution: the inherits step yields the empty
ancestor list instead of failing, and a root whose cursors directory
loaded and whose index file is missing completes successfully with no
ancestors resolved — the whole theme load is not aborted. -/
theorem index_absence_not_error :
    (∀ (fs : ThemeFS) (path : String), fs.index path = none →
      rootInherits fs path = .ok []) ∧
    (∀ (fs : ThemeFS) (path : String) (lines : List String),
      fs.index path = some lines →
      (∀ l, l ∈ lines → startsWithInherits l = false) →
      rootInherits fs path = .ok []) ∧
    (∀ (fs : ThemeFS) (theme : String)
      (loadRec : String → LoadState → LoadRes) (p : String)
      (rest : List String) (st st1 : LoadState),
      loadDir fs (join3 p theme "cursors") st = .ok st1 →
      fs.index (join3 p theme "index.theme") = none →
      runRoots fs theme loadRec (p :: rest) st = .ok st1) := by
  refine ⟨rootInherits_none, ?_, ?_⟩
  · intro fs path lines hidx hkey
    rw [rootInherits_some fs path lines hidx, scanInherits_no_key lines hkey]
  · intro fs theme loadRec p rest st st1 hld hidx
    simp only [runRoots]
    rw [hld, rootInherits_none fs _ hidx]
    rfl

/-- Witness for C9: a missing index file, an index file with no
`Inherits` line, and a root that completes with no ancestors. -/
theorem index_absence_not_error_witness :
    rootInherits emptyFS "r/T/index.theme" = .ok [] ∧
    rootInherits noKeyFS "r/T/index.theme" = .ok [] ∧
    runRoots noInheritFS "T" (fun _ st => .ok st) ["r"] ⟨[], []⟩ =
      .ok ⟨[], [.dirLoad "r/T/cursors"]⟩ :=
  ⟨index_absence_not_error.1 emptyFS "r/T/index.theme" rfl,
   index_absence_not_error.2.1 noKeyFS "r/T/index.theme"
     ["# comment", "Name=X"] rfl (by decide),
   index_absence_not_error.2.2 noInheritFS "T" (fun _ st => .ok st) "r" []
     ⟨[], []⟩ ⟨[], [.dirLoad "r/T/cursors"]⟩ rfl rfl⟩

theorem runRoots_all_missing (fs : ThemeFS) (theme : String)
    (loadRec : String → LoadState → LoadRes) :
    ∀ (roots : List String),
      (∀ p, p ∈ roots → fs.dir (join3 p theme "cursors") = none) →
    ∀ st, runRoots fs theme loadRec roots st = .ok st := by
  intro roots
  induction roots with
  | nil => intro h st; rfl
  | cons p rest ih =>
    intro h st
    have hld : loadDir fs (join3 p theme "cursors") st = .error .notExist := by
      rw [loadDir, h p (List.mem_cons_self p rest)]
    simp only [runRoots]
    rw [hld]
    exact ih (fun q hq => h q (List.mem_cons_of_mem p hq)) st

/-- C10.  When the (possibly defaulted) theme name's cursors directory
exists under none of the search roots, `LoadTheme` returns a theme with an
empty cursor map and no error: a completely absent theme is not reported
as an error. -/
theorem loadTheme_absent_everywhere (fs : ThemeFS) (fuel : Nat) (name : String)
    (hfuel : 1 ≤ fuel)
    (hmiss : ∀ p, p ∈ fs.roots →
      fs.dir (join3 p (if name = "" then "default" else name) "cursors") = none) :
    LoadTheme fs fuel name =
      some (⟨if name = "" then "default" else name, []⟩, none) := by
  obtain ⟨fuel, rfl⟩ : ∃ f, fuel = f + 1 := ⟨fuel - 1, by omega⟩
  simp only [LoadTheme, load]
  rw [runRoots_all_missing fs _ _ fs.roots hmiss ⟨[], []⟩]

/-- Witness for C10: loading a theme absent from the single search root
yields the empty theme and no error. -/
theorem loadTheme_absent_everywhere_witness :
    LoadTheme emptyFS 1 "nosuch" = some (⟨"nosuch", []⟩, none) :=
  loadTheme_absent_everywhere emptyFS 1 "nosuch" (by decide) (by decide)

end Ximage
